import Mathlib

/-!
# Verification of the synth_transform consolidation and resolution pipeline

Shallow embedding of the cross-round record consolidation and
identifier-resolution pipeline of the `synth_transform` repository, together
with the analytical SQL report queries that live under `synth/outputs/`.

The resolver / cache / grouper / consolidator core is exercised through its
notebook consumer (`notebooks/duplicates.ipynb`) and its resource description
(`README.md`); the Python module implementing it is not part of the source
tree given here, so those components are modelled from the specification text
and marked as such.  The SQL report queries are embedded directly from their
source files.
-/

namespace SynthTransform

/-- A per-round raw output record (spec §3 `RawOutput`): `round_id` is the
ordinal of the chronological source schema, `local_id` is unique within a
round, and the free-text fields may be empty or missing. -/
structure RawOutput where
  round_id : Nat
  local_id : Nat
  title : Option String
  reference_text : Option String
  url : Option String
  deriving Repr, DecidableEq

/-- The globally unique identity key `(round_id, local_id)` of a record. -/
def recordKey (r : RawOutput) : Nat × Nat := (r.round_id, r.local_id)

/-- Modelled from the spec: outcome of resolving one record, missing from the
source tree together with the resolver module.  `resolved` carries the DOI
and the index of the cascade strategy that produced it; the two unresolved
markers are the spec's `UNRESOLVED_NO_MATCH` and `UNRESOLVED_ERROR`. -/
inductive Resolution where
  | resolved (ident : String) (method : Nat)
  | unresolvedNoMatch
  | unresolvedError
  deriving Repr, DecidableEq

/-- Split a character stream into maximal whitespace-free words; `acc` holds
the reversed characters of the word currently being read. -/
def wordsAux : List Char → List Char → List (List Char)
  | [], acc => if acc.isEmpty then [] else [acc.reverse]
  | c :: cs, acc =>
    if c.isWhitespace then
      if acc.isEmpty then wordsAux cs [] else acc.reverse :: wordsAux cs []
    else wordsAux cs (c :: acc)

/-- Join words with single spaces. -/
def joinWords : List (List Char) → List Char
  | [] => []
  | [w] => w
  | w :: ws => w ++ ' ' :: joinWords ws

/-- Modelled from the spec: title normalization policy (§4.1.3), missing from
the source tree together with `clean_string`: case-insensitive (lower-case),
punctuation-stripped (only alphanumeric characters and whitespace survive),
whitespace-collapsed (runs of whitespace become a single space, ends
trimmed). -/
def normalizeTitle (s : String) : String :=
  let kept := (s.data.map Char.toLower).filter fun c => c.isAlphanum || c.isWhitespace
  String.mk (joinWords (wordsAux kept []))

/-- Modelled from the spec: the key of a `DuplicateGroup` (§4.3), missing
from the source tree together with the grouper module: resolved records are
grouped by identifier, unresolved records each form a singleton group keyed
by their own `(round_id, local_id)`. -/
inductive GroupKey where
  | ident (s : String)
  | single (k : Nat × Nat)
  deriving Repr, DecidableEq

/-- Modelled from the spec: the group key of one resolved record (§4.3),
missing from the source tree together with the grouper module. -/
def groupKeyOf (p : RawOutput × Resolution) : GroupKey :=
  match p.2 with
  | .resolved ident _ => .ident ident
  | .unresolvedNoMatch => .single (recordKey p.1)
  | .unresolvedError => .single (recordKey p.1)

/-- Modelled from the spec: the members of the group with the given key,
missing from the source tree together with the grouper module. -/
def groupFor (rs : List (RawOutput × Resolution)) (k : GroupKey) :
    List (RawOutput × Resolution) :=
  rs.filter fun p => groupKeyOf p = k

/-- Modelled from the spec: the Duplicate Grouper's partition (§4.3), missing
from the source tree together with the grouper module; mirrors the notebook's
`by_doi` groupby over the cache items.  One entry per distinct group key, in
first-appearance order. -/
def groupRecords (rs : List (RawOutput × Resolution)) :
    List (GroupKey × List (RawOutput × Resolution)) :=
  ((rs.map groupKeyOf).dedup).map fun k => (k, groupFor rs k)

/-- Modelled from the spec: result of one cascade strategy (design note §9:
tagged-result variants `Matched(identifier)` / `NoMatch` / `TransientError`,
not exceptions), missing from the source tree together with the resolver
module. -/
inductive StratResult where
  | matched (ident : String)
  | noMatch
  | transientError
  deriving Repr, DecidableEq

/-- Modelled from the spec: the resolver cascade (§4.1) from strategy index
`i` onward, missing from the source tree together with the resolver module.
Strategies are applied in order; the cascade stops at the first success,
falls through on `noMatch`, marks the record unresolved-due-to-error when a
strategy exhausts its retries, and marks it unresolved-no-match when every
strategy fails. -/
def cascadeFrom (r : RawOutput) : Nat → List (RawOutput → StratResult) → Resolution
  | _, [] => Resolution.unresolvedNoMatch
  | i, s :: rest =>
    match s r with
    | StratResult.matched ident => Resolution.resolved ident i
    | StratResult.noMatch => cascadeFrom r (i + 1) rest
    | StratResult.transientError => Resolution.unresolvedError

/-- Modelled from the spec: run a strategy cascade from its start (§4.1). -/
def cascade (strategies : List (RawOutput → StratResult)) (r : RawOutput) : Resolution :=
  cascadeFrom r 0 strategies

/-- Modelled from the spec: direct DOI-pattern extraction (§4.1.1), missing
from the source tree together with the resolver module: scan the character
stream for the standard DOI syntax — the characters `10.`, a nonempty numeric
registrant code, `/` and a nonempty non-whitespace tail — and accept the
first syntactically valid match. -/
def extractDoiFrom : List Char → Option String
  | [] => none
  | '1' :: '0' :: '.' :: rest =>
    let reg := rest.takeWhile Char.isDigit
    let afterReg := rest.dropWhile Char.isDigit
    if reg.isEmpty then none
    else
      match afterReg with
      | '/' :: tail =>
        let body := tail.takeWhile fun c => !c.isWhitespace
        if body.isEmpty then none
        else some (String.mk ('1' :: '0' :: '.' :: (reg ++ '/' :: body)))
      | _ => none
  | _ :: cs => extractDoiFrom cs

/-- Modelled from the spec: cascade strategy 1 (§4.1.1), missing from the
source tree together with the resolver module: scan `reference_text` and then
`title` for a well-formed DOI. -/
def directPattern (r : RawOutput) : StratResult :=
  match extractDoiFrom (r.reference_text.getD "").data with
  | some d => StratResult.matched d
  | none =>
    match extractDoiFrom (r.title.getD "").data with
    | some d => StratResult.matched d
    | none => StratResult.noMatch

/-- Modelled from the spec: cascade strategy 2 (§4.1.2), missing from the
source tree together with the resolver module: if a `url` is present and
embeds an identifier in its path, extract it. -/
def urlInspection (r : RawOutput) : StratResult :=
  match r.url with
  | none => StratResult.noMatch
  | some u =>
    match extractDoiFrom u.data with
    | some d => StratResult.matched d
    | none => StratResult.noMatch

/-- Modelled from the spec: a candidate returned by a bibliographic search
service (§6): an identifier with its associated title. -/
structure Candidate where
  ident : String
  title : String
  deriving Repr, DecidableEq

/-- Modelled from the spec: remote search strategy (§4.1.3–4.1.4), missing
from the source tree together with the resolver module: query the service
with the normalized title and accept a candidate only if its normalized
title exactly equals the normalized query title (case-insensitive,
punctuation-stripped, whitespace-collapsed; no partial-credit fuzzy
scoring). -/
def searchStrategy (svc : String → List Candidate) (r : RawOutput) : StratResult :=
  let q := normalizeTitle (r.title.getD "")
  if q = "" then StratResult.noMatch
  else
    match (svc q).find? fun c => normalizeTitle c.title = q with
    | some c => StratResult.matched c.ident
    | none => StratResult.noMatch

/-- Modelled from the spec: the resolver's fixed four-strategy cascade
(§4.1), missing from the source tree together with the resolver module:
direct pattern extraction, URL inspection, remote search, secondary search. -/
def resolverStrategies (svc1 svc2 : String → List Candidate) :
    List (RawOutput → StratResult) :=
  [directPattern, urlInspection, searchStrategy svc1, searchStrategy svc2]

/-- Modelled from the spec: the Identifier Resolver (§4.1), missing from the
source tree together with the resolver module. -/
def resolve (svc1 svc2 : String → List Candidate) (r : RawOutput) : Resolution :=
  cascade (resolverStrategies svc1 svc2) r

/-- Concrete grouper input: two records resolved to the same DOI (strategies
1 and 3 of the cascade) plus one no-match record, used to witness the
partition property. -/
def grouperExample : List (RawOutput × Resolution) :=
  [ (⟨1, 10, some "Bees of Kent", some "doi:10.1234/abc", none⟩,
      Resolution.resolved "10.1234/abc" 0),
    (⟨3, 55, some "Bees of kent.", some "", none⟩,
      Resolution.resolved "10.1234/abc" 2),
    (⟨2, 7, none, none, none⟩, Resolution.unresolvedNoMatch) ]

/-- Concrete record with a title but no reference text and no URL, used to
witness the cascade ordering property. -/
def rEx : RawOutput := ⟨2, 5, some "Bees", none, none⟩

/-- Concrete primary search service whose only candidate has a different
normalized title than any query. -/
def svc1Ex : String → List Candidate := fun _ => [⟨"10.5/y", "Different title"⟩]

/-- Concrete secondary search service whose candidate's normalized title
matches the query `bees`. -/
def svc2Ex : String → List Candidate := fun _ => [⟨"10.9/z", "BEES"⟩]

/-- Concrete cascade segment: the two strategies before the succeeding one. -/
def frontEx : List (RawOutput → StratResult) := [directPattern, urlInspection]

/-- Concrete succeeding strategy. -/
def sEx : RawOutput → StratResult := fun _ => StratResult.matched "10.1/x"

/-- Concrete strategies after the succeeding one: none. -/
def postEx : List (RawOutput → StratResult) := []

/-- Alternative strategies after the succeeding one, to show they are never
consulted. -/
def postEx2 : List (RawOutput → StratResult) := [fun _ => StratResult.matched "10.77/w"]

/-- Modelled from the spec: descending-round order on records, used by the
Record Consolidator's canonical-title policy (§4.4); missing from the source
tree together with the consolidator module. -/
def roundGe (a b : RawOutput) : Prop := b.round_id ≤ a.round_id

instance : DecidableRel roundGe := fun a b => Nat.decLe b.round_id a.round_id

instance : IsTotal RawOutput roundGe :=
  ⟨fun a b => (Nat.le_total b.round_id a.round_id).elim Or.inl Or.inr⟩

instance : IsTrans RawOutput roundGe :=
  ⟨fun _ _ _ hab hbc => Nat.le_trans hbc hab⟩

/-- An empty or missing title counts as absent for the title policy. -/
def nonEmptyTitle : Option String → Option String
  | none => none
  | some t => if t = "" then none else some t

/-- Modelled from the spec: canonical title selection (§4.4), missing from
the source tree together with the consolidator module: prefer the title from
the latest contributing round; if that is empty or missing, take the first
non-empty title scanning the rounds in descending order. -/
def canonicalTitle (members : List RawOutput) : Option String :=
  match List.insertionSort roundGe members with
  | [] => none
  | m :: rest =>
    match nonEmptyTitle m.title with
    | some t => some t
    | none => rest.findSome? fun q => nonEmptyTitle q.title

/-- Lexicographic order on `(round_id, local_id)` keys. -/
def keyLe (a b : Nat × Nat) : Prop := a.1 < b.1 ∨ (a.1 = b.1 ∧ a.2 ≤ b.2)

instance : DecidableRel keyLe := fun a b =>
  inferInstanceAs (Decidable (a.1 < b.1 ∨ (a.1 = b.1 ∧ a.2 ≤ b.2)))

instance : IsTotal (Nat × Nat) keyLe := by
  constructor
  intro a b
  rcases Nat.lt_trichotomy a.1 b.1 with h | h | h
  · exact Or.inl (Or.inl h)
  · rcases Nat.le_total a.2 b.2 with h2 | h2
    · exact Or.inl (Or.inr ⟨h, h2⟩)
    · exact Or.inr (Or.inr ⟨h.symm, h2⟩)
  · exact Or.inr (Or.inl h)

instance : IsTrans (Nat × Nat) keyLe := by
  constructor
  rintro a b c (hab | ⟨hab, hab2⟩) (hbc | ⟨hbc, hbc2⟩)
  · exact Or.inl (Nat.lt_trans hab hbc)
  · exact Or.inl (hbc ▸ hab)
  · exact Or.inl (hab ▸ hbc)
  · exact Or.inr ⟨hab.trans hbc, Nat.le_trans hab2 hbc2⟩

/-- The lexicographically smaller of two keys. -/
def lexMin (a b : Nat × Nat) : Nat × Nat := if keyLe a b then a else b

/-- Modelled from the spec: the `(earliest contributing round_id, earliest
local_id)` key of a group's member list (§4.4), used to order canonical id
assignment; missing from the source tree together with the consolidator
module. -/
def earliestKey : List (RawOutput × Resolution) → Nat × Nat
  | [] => (0, 0)
  | [p] => recordKey p.1
  | p :: ps => lexMin (recordKey p.1) (earliestKey ps)

/-- Order on groups by ascending earliest contributing key. -/
def groupLe (g1 g2 : GroupKey × List (RawOutput × Resolution)) : Prop :=
  keyLe (earliestKey g1.2) (earliestKey g2.2)

instance : DecidableRel groupLe := fun g1 g2 =>
  inferInstanceAs (Decidable (keyLe (earliestKey g1.2) (earliestKey g2.2)))

instance : IsTotal (GroupKey × List (RawOutput × Resolution)) groupLe :=
  ⟨fun _ _ => IsTotal.total (r := keyLe) _ _⟩

instance : IsTrans (GroupKey × List (RawOutput × Resolution)) groupLe :=
  ⟨fun _ _ _ h1 h2 => Trans.trans (r := keyLe) (s := keyLe) h1 h2⟩

/-- Modelled from the spec: a consolidated canonical output row (§3
`CanonicalOutput`), missing from the source tree together with the
consolidator module: new stable id, canonical title, provenance keys,
resolved identifier (absent for unresolved singletons), plus the
title-disagreement audit annotation of §4.3. -/
structure CanonicalOutput where
  id : Nat
  title : Option String
  provenance : List (Nat × Nat)
  ident : Option String
  titleDisagreement : Bool
  deriving Repr, DecidableEq

/-- Modelled from the spec: one row of the persisted
`(round_id, local_id) → canonical_id` relation (§3 `IdMapping`), missing from
the source tree together with the consolidator module; mirrors the
notebook's `mappings.json` dump. -/
structure IdMapping where
  key : Nat × Nat
  canonical_id : Nat
  deriving Repr, DecidableEq

/-- Modelled from the spec: the distinct normalized titles of a group's
members (§4.3 anomaly detection). -/
def distinctNormalizedTitles (members : List (RawOutput × Resolution)) : List String :=
  (members.map fun p => normalizeTitle (p.1.title.getD "")).dedup

/-- The identifier carried by a group key, if any. -/
def identOfKey : GroupKey → Option String
  | GroupKey.ident s => some s
  | GroupKey.single _ => none

/-- Modelled from the spec: the groups in canonical id assignment order
(§4.4): ascending `(earliest contributing round_id, earliest local_id)`. -/
def sortedGroups (rs : List (RawOutput × Resolution)) :
    List (GroupKey × List (RawOutput × Resolution)) :=
  List.insertionSort groupLe (groupRecords rs)

/-- Modelled from the spec: the canonical output of the group at position
`i` of the assignment order (§4.4); new ids are `1, 2, 3, …`. -/
def canonicalOf (i : Nat) (g : GroupKey × List (RawOutput × Resolution)) :
    CanonicalOutput :=
  { id := i + 1
    title := canonicalTitle (g.2.map Prod.fst)
    provenance := g.2.map fun p => recordKey p.1
    ident := identOfKey g.1
    titleDisagreement := decide (1 < (distinctNormalizedTitles g.2).length) }

/-- Modelled from the spec: the Record Consolidator's canonical rows (§4.4),
missing from the source tree together with the consolidator module. -/
def consolidateOutputs (rs : List (RawOutput × Resolution)) : List CanonicalOutput :=
  (sortedGroups rs).enum.map fun ig => canonicalOf ig.1 ig.2

/-- Modelled from the spec: the Record Consolidator's IdMapping rows (§4.4):
one row per contributing `(round_id, local_id)` of each group, carrying the
group's canonical id; missing from the source tree together with the
consolidator module. -/
def consolidateMappings (rs : List (RawOutput × Resolution)) : List IdMapping :=
  (sortedGroups rs).enum.flatMap fun ig =>
    ig.2.2.map fun p => ⟨recordKey p.1, ig.1 + 1⟩

/-- Modelled from the spec: a full consolidation run (§4.4), missing from
the source tree together with the consolidator module. -/
def consolidate (rs : List (RawOutput × Resolution)) :
    List CanonicalOutput × List IdMapping :=
  (consolidateOutputs rs, consolidateMappings rs)

/-- Concrete member list from the spec's title scenario: records from rounds
1 and 3 sharing a DOI. -/
def titleExample : List RawOutput :=
  [⟨1, 10, some "Bees of Kent", some "doi:10.1234/abc", none⟩,
   ⟨3, 55, some "Bees of kent.", some "", none⟩]

/-- Modelled from the spec: a Resolution Cache entry value (§4.2): a stored
identifier or one of the two explicit unresolved markers; missing from the
source tree together with the cache module (the `output_dois.db` store). -/
inductive CacheValue where
  | ident (s : String)
  | unresolvedNoMatch
  | unresolvedError
  deriving Repr, DecidableEq

/-- Modelled from the spec: the key namespace of the Resolution Cache
(§4.2): an association list from `(round_id, local_id)` to cached values. -/
abbrev Cache := List ((Nat × Nat) × CacheValue)

/-- Modelled from the spec: cache `get` (§4.2). -/
def cacheGet (c : Cache) (k : Nat × Nat) : Option CacheValue :=
  (c.find? fun e => e.1 = k).map Prod.snd

/-- Modelled from the spec: cache `set` (§4.2): replaces any previous entry
for the key. -/
def cacheSet (c : Cache) (k : Nat × Nat) (v : CacheValue) : Cache :=
  (k, v) :: c.filter fun e => ¬ e.1 = k

/-- Modelled from the spec: the read-through policy (§4.2): a key is
re-resolved when absent, always when marked `UNRESOLVED_ERROR`, and
otherwise only under an explicit forced refresh. -/
def shouldResolve (c : Cache) (forced : Bool) (k : Nat × Nat) : Bool :=
  match cacheGet c k with
  | none => true
  | some CacheValue.unresolvedError => true
  | some CacheValue.unresolvedNoMatch => forced
  | some (CacheValue.ident _) => forced

/-- Modelled from the spec: processing one key in a resolution run (§4.2):
run the full cascade (`resolveNow`) and write through only when the policy
says to re-resolve. -/
def runKey (resolveNow : (Nat × Nat) → CacheValue) (forced : Bool)
    (c : Cache) (k : Nat × Nat) : Cache :=
  if shouldResolve c forced k then cacheSet c k (resolveNow k) else c

/-- Modelled from the spec: bounded exponential backoff delay before the
given retry attempt (§4.1 failure handling). -/
def backoffDelay (base : Nat) (attempt : Nat) : Nat := base * 2 ^ attempt

/-- Modelled from the spec: outcome of a single remote search call attempt
(§4.1.3). -/
inductive CallOutcome where
  | success (cs : List Candidate)
  | failure
  deriving Repr, DecidableEq

/-- Modelled from the spec: the retry loop (§4.1 failure handling): attempt
calls `i, i + 1, …` until one succeeds or the budget of `b` attempts is
exhausted. -/
def retryFrom (call : Nat → CallOutcome) : Nat → Nat → Option (List Candidate)
  | 0, _ => none
  | b + 1, i =>
    match call i with
    | CallOutcome.success cs => some cs
    | CallOutcome.failure => retryFrom call b (i + 1)

/-- Modelled from the spec: retry with bounded backoff starting at attempt
zero (§4.1 failure handling). -/
def retryWithBackoff (call : Nat → CallOutcome) (budget : Nat) :
    Option (List Candidate) :=
  retryFrom call budget 0

/-- Modelled from the spec: the remote search step after retries (§4.1,
§7): exhausted retries yield the transient-error marker, a successful call
is filtered through the acceptance policy. -/
def remoteStep (call : Nat → CallOutcome) (budget : Nat)
    (accept : List Candidate → Option String) : StratResult :=
  match retryWithBackoff call budget with
  | none => StratResult.transientError
  | some cs =>
    match accept cs with
    | some d => StratResult.matched d
    | none => StratResult.noMatch

/-- Modelled from the spec: the run summary counts (§7): resolved /
unresolved-no-match / unresolved-error. -/
structure RunSummary where
  resolvedCount : Nat
  noMatchCount : Nat
  errorCount : Nat
  deriving Repr, DecidableEq

/-- Modelled from the spec: aggregate the per-record outcomes of a run into
the summary counts (§7). -/
def summarize (rs : List (RawOutput × Resolution)) : RunSummary :=
  { resolvedCount := (rs.filter fun p =>
      match p.2 with
      | Resolution.resolved _ _ => true
      | _ => false).length
    noMatchCount := (rs.filter fun p => p.2 = Resolution.unresolvedNoMatch).length
    errorCount := (rs.filter fun p => p.2 = Resolution.unresolvedError).length }

/-- Modelled from the spec: data-integrity check (§7): the first duplicated
`(round_id, local_id)` key, if any. -/
def firstDuplicateKey : List (Nat × Nat) → Option (Nat × Nat)
  | [] => none
  | k :: ks => if k ∈ ks then some k else firstDuplicateKey ks

/-- Modelled from the spec: the overall pipeline boundary (§7): a duplicate
extraction key aborts the run before the target schema is written; every
other input — per-record resolution errors included — produces the summary
and the consolidated outputs. -/
def runPipeline (rs : List (RawOutput × Resolution)) :
    Except (Nat × Nat) (RunSummary × List CanonicalOutput × List IdMapping) :=
  match firstDuplicateKey (rs.map fun p => recordKey p.1) with
  | some k => Except.error k
  | none => Except.ok (summarize rs, consolidate rs)

/-- Instrumentation for title-sensitivity: rewrite one record's title,
leaving its key and resolution untouched. -/
def retitleRec (f : Option String → Option String) (p : RawOutput × Resolution) :
    RawOutput × Resolution :=
  ({ p.1 with title := f p.1.title }, p.2)

/-- Instrumentation for title-sensitivity: rewrite every record's title. -/
def retitle (f : Option String → Option String) (rs : List (RawOutput × Resolution)) :
    List (RawOutput × Resolution) :=
  rs.map (retitleRec f)

/-- Instrumentation for title-sensitivity: rewrite the titles of a group's
members. -/
def retitleGroup (f : Option String → Option String)
    (g : GroupKey × List (RawOutput × Resolution)) :
    GroupKey × List (RawOutput × Resolution) :=
  (g.1, g.2.map (retitleRec f))

/-- Concrete cache holding a resolved identifier, a no-match marker and an
error marker. -/
def cacheEx : Cache :=
  [((1, 10), CacheValue.ident "10.1234/abc"),
   ((2, 7), CacheValue.unresolvedNoMatch),
   ((3, 4), CacheValue.unresolvedError)]

/-- Concrete re-resolution function used in the cache witness. -/
def resolveNowEx : (Nat × Nat) → CacheValue := fun _ => CacheValue.ident "10.999/new"

/-- Concrete call sequence: the first attempt fails, later attempts
succeed. -/
def callEx : Nat → CallOutcome :=
  fun i => if i < 1 then CallOutcome.failure else CallOutcome.success []

/-- Concrete acceptance policy used in the retry witness. -/
def acceptEx : List Candidate → Option String := fun _ => none

/-- Concrete title rewrite used in the non-blocking witness. -/
def retitleEx : Option String → Option String := fun _ => some "Replacement title"

/-- A row of the `VisitorProject` table, restricted to the columns the visit
report queries read; nullable columns are `Option`. -/
structure VisitorProject where
  call_submitted : Nat
  length_of_visit : Option Int
  user_age_range : Option String
  gender : Option String
  nationality : Option Nat
  deriving Repr, DecidableEq

/-- A row of the `Call` table (columns used by the joins). -/
structure CallRow where
  id : Nat
  round_id : Nat
  deriving Repr, DecidableEq

/-- A row of the `Round` table (columns used by the joins). -/
structure RoundRow where
  id : Nat
  name : String
  deriving Repr, DecidableEq

/-- A row of the `Country` table (columns used by the nationality query). -/
structure Country where
  id : Nat
  name : String
  code : String
  deriving Repr, DecidableEq

/-- The tables read by the four visit report queries. -/
structure VisitsDb where
  visits : List VisitorProject
  calls : List CallRow
  rounds : List RoundRow
  countries : List Country

/-- The shared `where vp.length_of_visit > 0` predicate
(`visits_age_range_count.sql` line 8, `visits_gender_count.sql` line 8,
`visits_visitor_nationality_count.sql` line 9 and the per-round query):
under SQL comparison semantics a NULL length is not greater than zero, so
such rows are excluded. -/
def lengthPositive (vp : VisitorProject) : Bool :=
  match vp.length_of_visit with
  | some n => 0 < n
  | none => false

/-- The `VisitorProject join Call on vp.call_submitted = c.id join Round on
c.round_id = r.id` inner join shared by all four queries. -/
def joinVCR (db : VisitsDb) : List (VisitorProject × CallRow × RoundRow) :=
  db.visits.flatMap fun vp =>
    (db.calls.filter fun c => c.id = vp.call_submitted).flatMap fun c =>
      (db.rounds.filter fun r => r.id = c.round_id).map fun r => (vp, c, r)

/-- The joined rows passing the `length_of_visit > 0` filter. -/
def qualifyingVCR (db : VisitsDb) : List (VisitorProject × CallRow × RoundRow) :=
  (joinVCR db).filter fun t => lengthPositive t.1

/-- The nationality query's additional
`join Country cc on vp.nationality = cc.id` (a NULL nationality joins to no
country). -/
def joinVCRC (db : VisitsDb) :
    List (VisitorProject × CallRow × RoundRow × Country) :=
  db.visits.flatMap fun vp =>
    (db.calls.filter fun c => c.id = vp.call_submitted).flatMap fun c =>
      (db.rounds.filter fun r => r.id = c.round_id).flatMap fun r =>
        (db.countries.filter fun cc => vp.nationality = some cc.id).map
          fun cc => (vp, c, r, cc)

/-- The four-way joined rows passing the `length_of_visit > 0` filter. -/
def qualifyingVCRC (db : VisitsDb) :
    List (VisitorProject × CallRow × RoundRow × Country) :=
  (joinVCRC db).filter fun t => lengthPositive t.1

/-- SQL `group by` + `count(*)` + `order by` over a key: one row per
distinct key value in key order, counting the matching input rows. -/
def groupCounts {α κ : Type} [DecidableEq κ] (key : α → κ)
    (le : κ → κ → Prop) [DecidableRel le] (l : List α) : List (κ × Nat) :=
  (List.insertionSort le (l.map key).dedup).map fun k =>
    (k, (l.filter fun a => key a = k).length)

/-- Order on optional strings: NULL sorts first, values by string order. -/
def strOptLe (a b : Option String) : Prop :=
  match a, b with
  | none, _ => True
  | some _, none => False
  | some x, some y => x ≤ y

instance : DecidableRel strOptLe := fun a b =>
  match a, b with
  | none, _ => Decidable.isTrue trivial
  | some _, none => Decidable.isFalse fun h => h
  | some x, some y => inferInstanceAs (Decidable (x ≤ y))

/-- Order on `(round name, second column)` keys: by name, then by the
second column. -/
def pairLe {β : Type} (le2 : β → β → Prop) (a b : String × β) : Prop :=
  a.1 < b.1 ∨ (a.1 = b.1 ∧ le2 a.2 b.2)

instance {β : Type} (le2 : β → β → Prop) [DecidableRel le2] :
    DecidableRel (pairLe le2) := fun a b =>
  inferInstanceAs (Decidable (a.1 < b.1 ∨ (a.1 = b.1 ∧ le2 a.2 b.2)))

/-- The visits-per-round query: qualifying joined rows grouped and ordered
by round name, with a `count(*)` column. -/
def visitsPerRound (db : VisitsDb) : List (String × Nat) :=
  groupCounts (fun t => t.2.2.name) (· ≤ ·) (qualifyingVCR db)

/-- `visits_age_range_count.sql`: qualifying joined rows grouped and
ordered by `(round name, user_age_range)`. -/
def visitsAgeRangeCount (db : VisitsDb) : List ((String × Option String) × Nat) :=
  groupCounts (fun t => (t.2.2.name, t.1.user_age_range)) (pairLe strOptLe)
    (qualifyingVCR db)

/-- `visits_gender_count.sql`: qualifying joined rows grouped and ordered
by `(round name, gender)`. -/
def visitsGenderCount (db : VisitsDb) : List ((String × Option String) × Nat) :=
  groupCounts (fun t => (t.2.2.name, t.1.gender)) (pairLe strOptLe)
    (qualifyingVCR db)

/-- Render a nullable column value. -/
def optValue : Option String → String
  | none => "NULL"
  | some v => v

/-- `visits_gender_count.sql`, select clause: each result row carries the
round name under `synth round`, the gender value under the header
`age range` (the file aliases `vp.gender` as `age range`), and the count
under `count`. -/
def visitsGenderCountRows (db : VisitsDb) : List (List (String × String)) :=
  (visitsGenderCount db).map fun kn =>
    [("synth round", kn.1.1), ("age range", optValue kn.1.2),
     ("count", toString kn.2)]

/-- Order on countries by id (the nationality query orders by
`vp.nationality`, which equals the joined country's id). -/
def countryLe (c1 c2 : Country) : Prop := c1.id ≤ c2.id

instance : DecidableRel countryLe := fun c1 c2 => Nat.decLe c1.id c2.id

/-- `visits_visitor_nationality_count.sql`: qualifying four-way joined rows
grouped by `(round name, joined country)` and ordered by round name then
nationality. -/
def visitsNationalityCount (db : VisitsDb) : List ((String × Country) × Nat) :=
  groupCounts (fun t => (t.2.2.1.name, t.2.2.2)) (pairLe countryLe)
    (qualifyingVCRC db)

/-- Remove the visits failing the length filter from the database. -/
def restrictVisits (db : VisitsDb) : VisitsDb :=
  { db with visits := db.visits.filter lengthPositive }

/-! ## Theorems -/

/-- Membership in a group is membership in the input with the matching
group key. -/
theorem mem_groupFor {rs : List (RawOutput × Resolution)} {k : GroupKey}
    {p : RawOutput × Resolution} : p ∈ groupFor rs k ↔ p ∈ rs ∧ groupKeyOf p = k := by
  simp [groupFor]

/-- The keys of the grouper's output are the deduplicated group keys of the
input. -/
theorem groupRecords_keys (rs : List (RawOutput × Resolution)) :
    (groupRecords rs).map Prod.fst = (rs.map groupKeyOf).dedup := by
  simp [groupRecords, List.map_map, Function.comp_def]

/-- Characterization of the entries of the grouper's output. -/
theorem mem_groupRecords {rs : List (RawOutput × Resolution)}
    {k : GroupKey} {members : List (RawOutput × Resolution)} :
    (k, members) ∈ groupRecords rs ↔
      k ∈ (rs.map groupKeyOf).dedup ∧ members = groupFor rs k := by
  constructor
  · intro h
    rcases List.mem_map.mp h with ⟨k0, hk0, heq⟩
    cases heq
    exact ⟨hk0, rfl⟩
  · rintro ⟨hk, rfl⟩
    exact List.mem_map_of_mem _ hk

/-- Filtering a duplicate-free list by a predicate satisfied by exactly one
member yields that singleton. -/
theorem filter_eq_singleton_of_unique {α} {l : List α} {p : α} {f : α → Bool}
    (hnd : l.Nodup) (hp : p ∈ l) (hf : f p = true)
    (huniq : ∀ q ∈ l, f q = true → q = p) : l.filter f = [p] := by
  induction l with
  | nil => cases hp
  | cons a t ih =>
    rcases List.nodup_cons.mp hnd with ⟨hat, hndt⟩
    rcases List.mem_cons.mp hp with rfl | hpt
    · have ht : t.filter f = [] := by
        rw [List.filter_eq_nil_iff]
        intro q hq hfq
        exact hat ((huniq q (List.mem_cons_of_mem _ hq) hfq) ▸ hq)
      simp [List.filter_cons, hf, ht]
    · have ha : f a = false := by
        by_contra h
        have : a = p := huniq a (List.mem_cons_self _ _) (by simpa using h)
        exact hat (this ▸ hpt)
      rw [List.filter_cons_of_neg (by simp [ha])]
      exact ih hndt hpt fun q hq hfq => huniq q (List.mem_cons_of_mem _ hq) hfq

/-- C1: the Duplicate Grouper produces a partition — group keys are
pairwise distinct, every record belongs to exactly one group, every member
of a group keyed by an identifier resolved to that identifier, and every
record with no resolved identifier (no-match or error) forms its own
singleton group keyed by its `(round_id, local_id)`. -/
theorem duplicate_grouper_partition
    (rs : List (RawOutput × Resolution))
    (hkeys : (rs.map fun p => recordKey p.1).Nodup) :
    ((groupRecords rs).map Prod.fst).Nodup ∧
    (∀ p ∈ rs, ∃! k : GroupKey,
        (k, groupFor rs k) ∈ groupRecords rs ∧ p ∈ groupFor rs k) ∧
    (∀ k members, (k, members) ∈ groupRecords rs → ∀ p ∈ members, ∀ s,
        k = GroupKey.ident s → ∃ m, p.2 = Resolution.resolved s m) ∧
    (∀ p ∈ rs, (p.2 = Resolution.unresolvedNoMatch ∨ p.2 = Resolution.unresolvedError) →
        groupFor rs (GroupKey.single (recordKey p.1)) = [p]) := by
  refine ⟨?_, ?_, ?_, ?_⟩
  · rw [groupRecords_keys]
    exact List.nodup_dedup _
  · intro p hp
    refine ⟨groupKeyOf p, ⟨?_, ?_⟩, ?_⟩
    · exact mem_groupRecords.mpr ⟨List.mem_dedup.mpr (List.mem_map_of_mem _ hp), rfl⟩
    · exact mem_groupFor.mpr ⟨hp, rfl⟩
    · rintro k' ⟨_, hmem⟩
      exact ((mem_groupFor.mp hmem).2).symm
  · intro k members hmem p hp s hks
    rcases mem_groupRecords.mp hmem with ⟨hk, rfl⟩
    have hkey := (mem_groupFor.mp hp).2
    subst hks
    rcases p with ⟨r, res⟩
    cases res with
    | resolved ident m =>
      simp only [groupKeyOf, GroupKey.ident.injEq] at hkey
      exact ⟨m, by rw [hkey]⟩
    | unresolvedNoMatch => simp [groupKeyOf] at hkey
    | unresolvedError => simp [groupKeyOf] at hkey
  · intro p hp hunres
    have hnd : rs.Nodup := List.Nodup.of_map _ hkeys
    have hkeyp : groupKeyOf p = GroupKey.single (recordKey p.1) := by
      rcases hunres with h | h <;> simp [groupKeyOf, h]
    apply filter_eq_singleton_of_unique hnd hp
    · simpa using hkeyp
    · intro q hq hfq
      have hkeyq : groupKeyOf q = GroupKey.single (recordKey p.1) := by simpa using hfq
      have hrk : recordKey q.1 = recordKey p.1 := by
        rcases q with ⟨rq, resq⟩
        cases resq with
        | resolved ident m => simp [groupKeyOf] at hkeyq
        | unresolvedNoMatch => simpa [groupKeyOf] using hkeyq
        | unresolvedError => simpa [groupKeyOf] using hkeyq
      exact List.inj_on_of_nodup_map hkeys hq hp hrk

/-- C1 witness: the partition property evaluated at a concrete input with
two duplicated records and one unresolved record. -/
theorem duplicate_grouper_partition_witness :
    ((grouperExample.map fun p => recordKey p.1).Nodup) ∧
    (((groupRecords grouperExample).map Prod.fst).Nodup ∧
    (∀ p ∈ grouperExample, ∃! k : GroupKey,
        (k, groupFor grouperExample k) ∈ groupRecords grouperExample ∧
          p ∈ groupFor grouperExample k) ∧
    (∀ k members, (k, members) ∈ groupRecords grouperExample → ∀ p ∈ members, ∀ s,
        k = GroupKey.ident s → ∃ m, p.2 = Resolution.resolved s m) ∧
    (∀ p ∈ grouperExample,
        (p.2 = Resolution.unresolvedNoMatch ∨ p.2 = Resolution.unresolvedError) →
        groupFor grouperExample (GroupKey.single (recordKey p.1)) = [p])) :=
  ⟨by decide, duplicate_grouper_partition grouperExample (by decide)⟩

/-- Skipping a block of strategies that all answer `noMatch` advances the
cascade to the strategy after the block, with the index advanced by the
block's length. -/
theorem cascadeFrom_append (r : RawOutput) (l : List (RawOutput → StratResult)) :
    ∀ (front : List (RawOutput → StratResult)) (i : Nat),
      (∀ t ∈ front, t r = StratResult.noMatch) →
      cascadeFrom r i (front ++ l) = cascadeFrom r (i + front.length) l := by
  intro front
  induction front with
  | nil => intro i _; simp [cascadeFrom]
  | cons s rest ih =>
    intro i h
    have hs : s r = StratResult.noMatch := h s (List.mem_cons_self _ _)
    have hrest : ∀ t ∈ rest, t r = StratResult.noMatch :=
      fun t ht => h t (List.mem_cons_of_mem _ ht)
    simp only [List.cons_append, cascadeFrom, hs]
    rw [show rest.append l = rest ++ l from rfl, ih (i + 1) hrest]
    congr 1
    simp [List.length_cons]
    omega

/-- C2: the resolver applies the strategies in their fixed order and returns
the first success — the result ignores every strategy after the first
success; a remote-search candidate is accepted only when its normalized
title exactly equals the normalized query title, and when all of the primary
service's candidates mismatch, the resolver falls through to the secondary
search service. -/
theorem resolver_cascade_first_success
    (front post post' : List (RawOutput → StratResult)) (s : RawOutput → StratResult)
    (r : RawOutput) (ident : String) (svc1 svc2 : String → List Candidate) (d : String)
    (hfront : ∀ t ∈ front, t r = StratResult.noMatch)
    (hs : s r = StratResult.matched ident)
    (h1 : directPattern r = StratResult.noMatch)
    (h2 : urlInspection r = StratResult.noMatch)
    (h3 : ∀ c ∈ svc1 (normalizeTitle (r.title.getD "")),
        normalizeTitle c.title ≠ normalizeTitle (r.title.getD ""))
    (h4 : searchStrategy svc2 r = StratResult.matched d) :
    cascade (front ++ s :: post) r = Resolution.resolved ident front.length ∧
    cascade (front ++ s :: post) r = cascade (front ++ s :: post') r ∧
    searchStrategy svc1 r = StratResult.noMatch ∧
    resolve svc1 svc2 r = Resolution.resolved d 3 ∧
    (∀ svc r' d', searchStrategy svc r' = StratResult.matched d' →
        ∃ c ∈ svc (normalizeTitle (r'.title.getD "")),
          c.ident = d' ∧ normalizeTitle c.title = normalizeTitle (r'.title.getD "")) := by
  have hhead : ∀ post0 : List (RawOutput → StratResult),
      cascade (front ++ s :: post0) r = Resolution.resolved ident front.length := by
    intro post0
    rw [cascade, cascadeFrom_append r (s :: post0) front 0 hfront]
    simp [cascadeFrom, hs]
  have hsvc1 : searchStrategy svc1 r = StratResult.noMatch := by
    rw [searchStrategy]
    by_cases hq : normalizeTitle (r.title.getD "") = ""
    · simp [hq]
    · simp only [hq, if_neg hq]
      have : (svc1 (normalizeTitle (r.title.getD ""))).find?
          (fun c => normalizeTitle c.title = normalizeTitle (r.title.getD "")) = none := by
        rw [List.find?_eq_none]
        intro c hc
        simpa using h3 c hc
      rw [this]
      simp
  refine ⟨hhead post, (hhead post).trans (hhead post').symm, hsvc1, ?_, ?_⟩
  · rw [resolve, cascade, resolverStrategies]
    have : ([directPattern, urlInspection, searchStrategy svc1] :
        List (RawOutput → StratResult)) ++ [searchStrategy svc2] =
        [directPattern, urlInspection, searchStrategy svc1, searchStrategy svc2] := rfl
    rw [← this, cascadeFrom_append r _ _ 0 ?_]
    · simp [cascadeFrom, h4]
    · intro t ht
      rcases List.mem_cons.mp ht with rfl | ht
      · exact h1
      rcases List.mem_cons.mp ht with rfl | ht
      · exact h2
      rcases List.mem_cons.mp ht with rfl | ht
      · exact hsvc1
      · cases ht
  · intro svc r' d' hmatch
    rw [searchStrategy] at hmatch
    by_cases hq : normalizeTitle (r'.title.getD "") = ""
    · simp [hq] at hmatch
    · simp only [hq, if_neg hq] at hmatch
      cases hfind : (svc (normalizeTitle (r'.title.getD ""))).find?
          (fun c => normalizeTitle c.title = normalizeTitle (r'.title.getD "")) with
      | none => rw [hfind] at hmatch; cases hmatch
      | some c =>
        rw [hfind] at hmatch
        cases hmatch
        refine ⟨c, List.mem_of_find?_eq_some hfind, rfl, ?_⟩
        have := List.find?_some hfind
        simpa using this

/-- C2 witness: the cascade ordering, short-circuit, mismatch rejection and
secondary-service fallthrough evaluated at concrete strategies, services and
a concrete record. -/
theorem resolver_cascade_first_success_witness :
    (∀ t ∈ frontEx, t rEx = StratResult.noMatch) ∧
    sEx rEx = StratResult.matched "10.1/x" ∧
    directPattern rEx = StratResult.noMatch ∧
    urlInspection rEx = StratResult.noMatch ∧
    (∀ c ∈ svc1Ex (normalizeTitle (rEx.title.getD "")),
        normalizeTitle c.title ≠ normalizeTitle (rEx.title.getD "")) ∧
    searchStrategy svc2Ex rEx = StratResult.matched "10.9/z" ∧
    (cascade (frontEx ++ sEx :: postEx) rEx = Resolution.resolved "10.1/x" frontEx.length ∧
     cascade (frontEx ++ sEx :: postEx) rEx = cascade (frontEx ++ sEx :: postEx2) rEx ∧
     searchStrategy svc1Ex rEx = StratResult.noMatch ∧
     resolve svc1Ex svc2Ex rEx = Resolution.resolved "10.9/z" 3 ∧
     (∀ svc r' d', searchStrategy svc r' = StratResult.matched d' →
        ∃ c ∈ svc (normalizeTitle (r'.title.getD "")),
          c.ident = d' ∧ normalizeTitle c.title = normalizeTitle (r'.title.getD ""))) := by
  have hfront : ∀ t ∈ frontEx, t rEx = StratResult.noMatch := by
    intro t ht
    rcases List.mem_cons.mp ht with rfl | ht
    · rfl
    rcases List.mem_cons.mp ht with rfl | ht
    · rfl
    · cases ht
  have hs : sEx rEx = StratResult.matched "10.1/x" := rfl
  have h1 : directPattern rEx = StratResult.noMatch := rfl
  have h2 : urlInspection rEx = StratResult.noMatch := rfl
  have h3 : ∀ c ∈ svc1Ex (normalizeTitle (rEx.title.getD "")),
      normalizeTitle c.title ≠ normalizeTitle (rEx.title.getD "") := by
    intro c hc
    rw [List.mem_singleton.mp hc]
    decide
  have h4 : searchStrategy svc2Ex rEx = StratResult.matched "10.9/z" := rfl
  exact ⟨hfront, hs, h1, h2, h3, h4,
    resolver_cascade_first_success frontEx postEx postEx2 sEx rEx "10.1/x"
      svc1Ex svc2Ex "10.9/z" hfront hs h1 h2 h3 h4⟩

/-- C3: the consolidator's canonical title comes from the latest
contributing round — the head of the descending-round ordering is a member
with maximal round; when its title is non-empty it is chosen, and when it is
empty or missing the canonical title is the first non-empty title scanning
the members in descending round order. -/
theorem consolidator_canonical_title (members : List RawOutput) (h : members ≠ []) :
    ∃ m rest, List.insertionSort roundGe members = m :: rest ∧
      m ∈ members ∧
      (∀ q ∈ members, q.round_id ≤ m.round_id) ∧
      List.Sorted roundGe (m :: rest) ∧
      (m :: rest).Perm members ∧
      (∀ t, nonEmptyTitle m.title = some t → canonicalTitle members = some t) ∧
      (nonEmptyTitle m.title = none →
        canonicalTitle members = rest.findSome? fun q => nonEmptyTitle q.title) := by
  have hperm := List.perm_insertionSort roundGe members
  have hsorted := List.sorted_insertionSort roundGe members
  cases hms : List.insertionSort roundGe members with
  | nil =>
    rw [hms] at hperm
    exact absurd hperm.symm.eq_nil h
  | cons m rest =>
    rw [hms] at hperm hsorted
    refine ⟨m, rest, rfl, hperm.subset (List.mem_cons_self _ _), ?_, hsorted, hperm, ?_, ?_⟩
    · intro q hq
      rcases List.mem_cons.mp (hperm.symm.subset hq) with rfl | hq'
      · exact Nat.le_refl _
      · exact List.rel_of_sorted_cons hsorted q hq'
    · intro t ht
      rw [canonicalTitle, hms]
      simp only [ht]
    · intro ht
      rw [canonicalTitle, hms]
      simp only [ht]

/-- C3 witness: the title policy evaluated at the spec's two-record
scenario (rounds 1 and 3). -/
theorem consolidator_canonical_title_witness :
    titleExample ≠ [] ∧
    (∃ m rest, List.insertionSort roundGe titleExample = m :: rest ∧
      m ∈ titleExample ∧
      (∀ q ∈ titleExample, q.round_id ≤ m.round_id) ∧
      List.Sorted roundGe (m :: rest) ∧
      (m :: rest).Perm titleExample ∧
      (∀ t, nonEmptyTitle m.title = some t → canonicalTitle titleExample = some t) ∧
      (nonEmptyTitle m.title = none →
        canonicalTitle titleExample = rest.findSome? fun q => nonEmptyTitle q.title)) :=
  ⟨by decide, consolidator_canonical_title titleExample (by decide)⟩


/-- The canonical ids emitted by a consolidation run are exactly `1, …, n`
in output order, where `n` is the number of duplicate groups. -/
theorem consolidateOutputs_ids (rs : List (RawOutput × Resolution)) :
    (consolidateOutputs rs).map CanonicalOutput.id =
      (List.range (groupRecords rs).length).map (· + 1) := by
  rw [consolidateOutputs, List.map_map]
  have h1 : (CanonicalOutput.id ∘ fun ig => canonicalOf ig.1 ig.2) =
      (fun n => n + 1) ∘ (Prod.fst : Nat × (GroupKey × List (RawOutput × Resolution)) → Nat) := by
    funext ig
    rfl
  rw [h1, ← List.map_map, List.enum_map_fst]
  have h2 : (sortedGroups rs).length = (groupRecords rs).length :=
    (List.perm_insertionSort groupLe (groupRecords rs)).length_eq
  rw [h2]

/-- The provenance lists of the canonical outputs are the member key lists
of the groups, in assignment order. -/
theorem consolidateOutputs_provenance (rs : List (RawOutput × Resolution)) :
    (consolidateOutputs rs).map CanonicalOutput.provenance =
      (sortedGroups rs).map fun g => g.2.map fun p => recordKey p.1 := by
  rw [consolidateOutputs, List.map_map]
  have h1 : (CanonicalOutput.provenance ∘ fun ig => canonicalOf ig.1 ig.2) =
      (fun g => g.2.map fun p => recordKey p.1) ∘
        (Prod.snd : Nat × (GroupKey × List (RawOutput × Resolution)) →
          GroupKey × List (RawOutput × Resolution)) := by
    funext ig
    rfl
  rw [h1, ← List.map_map, List.enum_map_snd]

/-- C4: canonical ids are assigned in ascending order of
`(earliest contributing round_id, earliest local_id)` — the output ids are
the deterministic sequence `1, …, n`, strictly increasing in output order,
the groups are consumed in ascending earliest-key order, outputs are
parallel to the sorted groups, and a rerun over equal input reproduces the
same CanonicalOutput rows and IdMapping rows. -/
theorem canonical_id_assignment (rs : List (RawOutput × Resolution)) :
    ((consolidateOutputs rs).map CanonicalOutput.id =
      (List.range (groupRecords rs).length).map (· + 1)) ∧
    List.Pairwise (fun c1 c2 => c1.id < c2.id) (consolidateOutputs rs) ∧
    List.Pairwise (fun g1 g2 => keyLe (earliestKey g1.2) (earliestKey g2.2))
      (sortedGroups rs) ∧
    ((consolidateOutputs rs).map CanonicalOutput.provenance =
      (sortedGroups rs).map fun g => g.2.map fun p => recordKey p.1) ∧
    (∀ rs', rs' = rs → consolidate rs' = consolidate rs) := by
  refine ⟨consolidateOutputs_ids rs, ?_, ?_, consolidateOutputs_provenance rs, ?_⟩
  · have hids := consolidateOutputs_ids rs
    have hrange : List.Pairwise (· < ·)
        ((List.range (groupRecords rs).length).map (· + 1)) := by
      rw [List.pairwise_map]
      exact (List.pairwise_lt_range _).imp fun h => Nat.add_lt_add_right h 1
    rw [← hids] at hrange
    exact List.pairwise_map.mp hrange
  · exact List.sorted_insertionSort groupLe (groupRecords rs)
  · intro rs' h
    rw [h]

/-- Pointwise-equal functions give equal flat maps. -/
theorem flatMap_congr {α β} {f g : α → List β} :
    ∀ {l : List α}, (∀ a ∈ l, f a = g a) → l.flatMap f = l.flatMap g := by
  intro l h
  induction l with
  | nil => rfl
  | cons a t ih =>
    rw [List.flatMap_cons, List.flatMap_cons, h a (List.mem_cons_self _ _),
      ih fun b hb => h b (List.mem_cons_of_mem _ hb)]

/-- Partitioning a list by a duplicate-free, covering list of keys and
concatenating the parts permutes the original list. -/
theorem flatMap_filter_perm {α κ} [DecidableEq κ] (f : α → κ) :
    ∀ (ks : List κ) (l : List α), ks.Nodup → (∀ a ∈ l, f a ∈ ks) →
      (ks.flatMap fun k => l.filter fun a => f a = k).Perm l := by
  intro ks
  induction ks with
  | nil =>
    intro l _ hall
    cases l with
    | nil => simp
    | cons a t => exact absurd (hall a (List.mem_cons_self _ _)) (List.not_mem_nil _)
  | cons k ks ih =>
    intro l hnd hall
    rcases List.nodup_cons.mp hnd with ⟨hk, hnd'⟩
    rw [List.flatMap_cons]
    have hcongr : ∀ k' ∈ ks, (l.filter fun a => f a = k') =
        (l.filter fun a => ¬ f a = k).filter fun a => f a = k' := by
      intro k' hk'
      rw [List.filter_filter]
      apply List.filter_congr
      intro a _
      by_cases hfa : f a = k'
      · have hkne : ¬ k' = k := fun hkk => hk (hkk ▸ hk')
        simp [hfa, hkne]
      · simp [hfa]
    rw [flatMap_congr hcongr]
    have hsub : ∀ a ∈ l.filter fun a => ¬ f a = k, f a ∈ ks := by
      intro a ha
      rcases List.mem_filter.mp ha with ⟨hal, hak⟩
      rcases List.mem_cons.mp (hall a hal) with h | h
      · exact absurd (by simpa using h) (by simpa using hak)
      · exact h
    have hperm := ih (l.filter fun a => ¬ f a = k) hnd' hsub
    refine (hperm.append_left (l.filter fun a => f a = k)).trans ?_
    have : (l.filter fun a => ¬ f a = k) =
        l.filter fun a => !(decide (f a = k)) := by
      apply List.filter_congr
      intro a _
      simp [decide_not]
    rw [this]
    exact List.filter_append_perm _ l

/-- The keys of the mapping rows built from enumerated groups are the
concatenated member keys of the groups, whatever the enumeration base. -/
theorem mappings_keys_aux :
    ∀ (gs : List (GroupKey × List (RawOutput × Resolution))) (n : Nat),
      ((List.enumFrom n gs).flatMap fun ig =>
          ig.2.2.map fun p => (⟨recordKey p.1, ig.1 + 1⟩ : IdMapping)).map IdMapping.key =
        gs.flatMap fun g => g.2.map fun p => recordKey p.1 := by
  intro gs
  induction gs with
  | nil => intro n; rfl
  | cons g t ih =>
    intro n
    rw [show List.enumFrom n (g :: t) = (n, g) :: List.enumFrom (n + 1) t from rfl,
      List.flatMap_cons, List.flatMap_cons, List.map_append, ih]
    congr 1
    rw [List.map_map]
    rfl

/-- The IdMapping keys of a consolidation run are a permutation of the
record keys of the input. -/
theorem consolidateMappings_keys (rs : List (RawOutput × Resolution)) :
    ((consolidateMappings rs).map IdMapping.key).Perm (rs.map fun p => recordKey p.1) := by
  rw [consolidateMappings,
    show (sortedGroups rs).enum = List.enumFrom 0 (sortedGroups rs) from rfl,
    mappings_keys_aux]
  have h1 : (sortedGroups rs).Perm (groupRecords rs) := List.perm_insertionSort _ _
  refine (h1.flatMap_right _).trans ?_
  rw [groupRecords]
  have h2 : ((rs.map groupKeyOf).dedup.map fun k => (k, groupFor rs k)).flatMap
      (fun g => g.2.map fun p => recordKey p.1) =
      (rs.map groupKeyOf).dedup.flatMap fun k => (groupFor rs k).map fun p => recordKey p.1 := by
    rw [List.flatMap_map]
  rw [h2]
  have h3 : ((rs.map groupKeyOf).dedup.flatMap fun k =>
      (groupFor rs k).map fun p => recordKey p.1) =
      ((rs.map groupKeyOf).dedup.flatMap fun k => groupFor rs k).map fun p => recordKey p.1 := by
    rw [List.map_flatMap]
  rw [h3]
  apply List.Perm.map
  exact flatMap_filter_perm groupKeyOf _ rs (List.nodup_dedup _)
    fun p hp => List.mem_dedup.mpr (List.mem_map_of_mem _ hp)

/-- Filtering on a key value counts occurrences of that value among the
mapped keys. -/
theorem length_filter_key {α κ} [DecidableEq κ] (key : α → κ) (K : κ) :
    ∀ l : List α, (l.filter fun a => key a = K).length = List.count K (l.map key) := by
  intro l
  induction l with
  | nil => rfl
  | cons a t ih =>
    rw [List.map_cons, List.count_cons]
    by_cases h : key a = K
    · rw [List.filter_cons_of_pos (by simpa using h), List.length_cons, ih,
        if_pos (by simpa using h)]
    · rw [List.filter_cons_of_neg (by simpa using h), ih,
        if_neg (by simpa using h), Nat.add_zero]

/-- C5: after a consolidation run every extracted `(round_id, local_id)`
key appears in exactly one IdMapping row, every row's key comes from the
input, and the relation is many-to-one: rows with the same key carry the
same canonical id. -/
theorem idmapping_coverage (rs : List (RawOutput × Resolution))
    (hkeys : (rs.map fun p => recordKey p.1).Nodup) :
    (∀ p ∈ rs,
        ((consolidateMappings rs).filter fun row => row.key = recordKey p.1).length = 1) ∧
    (∀ row ∈ consolidateMappings rs, ∃ p ∈ rs, row.key = recordKey p.1) ∧
    (∀ row row', row ∈ consolidateMappings rs → row' ∈ consolidateMappings rs →
        row.key = row'.key → row.canonical_id = row'.canonical_id) := by
  have hperm := consolidateMappings_keys rs
  have hcount : ∀ p ∈ rs,
      ((consolidateMappings rs).filter fun row => row.key = recordKey p.1).length = 1 := by
    intro p hp
    rw [length_filter_key IdMapping.key (recordKey p.1) (consolidateMappings rs),
      hperm.count_eq]
    exact List.count_eq_one_of_mem hkeys (List.mem_map_of_mem _ hp)
  refine ⟨hcount, ?_, ?_⟩
  · intro row hrow
    have : row.key ∈ (consolidateMappings rs).map IdMapping.key :=
      List.mem_map_of_mem _ hrow
    have := hperm.subset this
    rcases List.mem_map.mp this with ⟨p, hp, hkey⟩
    exact ⟨p, hp, hkey.symm⟩
  · intro row row' hrow hrow' hkey
    have hmem : ∃ p ∈ rs, row.key = recordKey p.1 := by
      have : row.key ∈ (consolidateMappings rs).map IdMapping.key :=
        List.mem_map_of_mem _ hrow
      rcases List.mem_map.mp (hperm.subset this) with ⟨p, hp, h⟩
      exact ⟨p, hp, h.symm⟩
    rcases hmem with ⟨p, hp, hpk⟩
    have h1 := hcount p hp
    rcases List.length_eq_one.mp h1 with ⟨x, hx⟩
    have hrmem : row ∈ (consolidateMappings rs).filter fun q => q.key = recordKey p.1 :=
      List.mem_filter.mpr ⟨hrow, by simpa using hpk⟩
    have hrmem' : row' ∈ (consolidateMappings rs).filter fun q => q.key = recordKey p.1 :=
      List.mem_filter.mpr ⟨hrow', by simp [← hkey, hpk]⟩
    rw [hx] at hrmem hrmem'
    rw [List.mem_singleton.mp hrmem, List.mem_singleton.mp hrmem']

/-- C4 witness: the id-assignment properties evaluated at the concrete
grouper input. -/
theorem canonical_id_assignment_witness :
    ((consolidateOutputs grouperExample).map CanonicalOutput.id =
      (List.range (groupRecords grouperExample).length).map (· + 1)) ∧
    List.Pairwise (fun c1 c2 => c1.id < c2.id) (consolidateOutputs grouperExample) ∧
    List.Pairwise (fun g1 g2 => keyLe (earliestKey g1.2) (earliestKey g2.2))
      (sortedGroups grouperExample) ∧
    ((consolidateOutputs grouperExample).map CanonicalOutput.provenance =
      (sortedGroups grouperExample).map fun g => g.2.map fun p => recordKey p.1) ∧
    (∀ rs', rs' = grouperExample → consolidate rs' = consolidate grouperExample) :=
  canonical_id_assignment grouperExample

/-- C5 witness: coverage and uniqueness of the IdMapping rows evaluated at
the concrete grouper input. -/
theorem idmapping_coverage_witness :
    ((grouperExample.map fun p => recordKey p.1).Nodup) ∧
    ((∀ p ∈ grouperExample,
        ((consolidateMappings grouperExample).filter
          fun row => row.key = recordKey p.1).length = 1) ∧
    (∀ row ∈ consolidateMappings grouperExample,
        ∃ p ∈ grouperExample, row.key = recordKey p.1) ∧
    (∀ row row', row ∈ consolidateMappings grouperExample →
        row' ∈ consolidateMappings grouperExample →
        row.key = row'.key → row.canonical_id = row'.canonical_id)) :=
  ⟨by decide, idmapping_coverage grouperExample (by decide)⟩

/-- Filtering by a predicate implied by the search predicate does not
change the result of `find?`. -/
theorem find?_filter_of_imp {α} {p q : α → Bool} :
    ∀ l : List α, (∀ a, p a = true → q a = true) →
      (l.filter q).find? p = l.find? p := by
  intro l himp
  induction l with
  | nil => rfl
  | cons a t ih =>
    by_cases hq : q a = true
    · rw [List.filter_cons_of_pos hq]
      by_cases hp : p a = true
      · rw [List.find?_cons_of_pos _ hp, List.find?_cons_of_pos _ hp]
      · rw [List.find?_cons_of_neg _ hp, List.find?_cons_of_neg _ hp, ih]
    · have hp : ¬ p a = true := fun h => hq (himp a h)
      rw [List.filter_cons_of_neg (by simpa using hq),
        List.find?_cons_of_neg _ hp, ih]

/-- Writing one key leaves every other key's cached value unchanged. -/
theorem cacheGet_set_ne (c : Cache) {k k' : Nat × Nat} (v : CacheValue) (h : k ≠ k') :
    cacheGet (cacheSet c k' v) k = cacheGet c k := by
  rw [cacheGet, cacheSet,
    List.find?_cons_of_neg _ (by simp; exact fun he => h he.symm),
    find?_filter_of_imp c ?_, cacheGet]
  intro e he
  have h1 : e.1 = k := by simpa using he
  simp only [decide_eq_true_eq]
  exact fun hh => absurd (h1.symm.trans hh) h

/-- C6: a stored identifier is never changed by an unforced run on any key;
an `UNRESOLVED_ERROR` entry is eligible for re-resolution on any run, while
an `UNRESOLVED_NO_MATCH` entry is skipped by unforced runs and re-runs the
full cascade exactly under a forced refresh — which is also the only
operation that overwrites a stored identifier. -/
theorem cache_refresh_policy
    (c : Cache) (k k' : Nat × Nat) (s : String)
    (resolveNow : (Nat × Nat) → CacheValue)
    (hstored : cacheGet c k = some (CacheValue.ident s)) :
    (∀ k2, cacheGet (runKey resolveNow false c k2) k = some (CacheValue.ident s)) ∧
    (cacheGet c k' = some CacheValue.unresolvedError → shouldResolve c false k' = true) ∧
    (cacheGet c k' = some CacheValue.unresolvedNoMatch →
      shouldResolve c false k' = false ∧ shouldResolve c true k' = true ∧
      runKey resolveNow true c k' = cacheSet c k' (resolveNow k')) ∧
    (runKey resolveNow true c k = cacheSet c k (resolveNow k)) := by
  refine ⟨?_, ?_, ?_, ?_⟩
  · intro k2
    by_cases hk2 : k2 = k
    · subst hk2
      rw [runKey, shouldResolve, hstored]
      simpa using hstored
    · rw [runKey]
      by_cases hres : shouldResolve c false k2 = true
      · rw [if_pos hres]
        rw [cacheGet_set_ne c (resolveNow k2) fun h => hk2 h.symm]
        exact hstored
      · rw [if_neg hres]
        exact hstored
  · intro herr
    rw [shouldResolve, herr]
  · intro hnm
    refine ⟨?_, ?_, ?_⟩
    · rw [shouldResolve, hnm]
    · rw [shouldResolve, hnm]
    · rw [runKey, shouldResolve, hnm, if_pos rfl]
  · rw [runKey, shouldResolve, hstored, if_pos rfl]
/-- The retry loop starting at attempt `i` with budget `b` exhausts exactly
when every attempt in its window fails. -/
theorem retryFrom_eq_none (call : Nat → CallOutcome) :
    ∀ (b i : Nat), retryFrom call b i = none ↔
      ∀ j, i ≤ j → j < i + b → call j = CallOutcome.failure := by
  intro b
  induction b with
  | zero =>
    intro i
    simp only [retryFrom]
    constructor
    · intro _ j h1 h2
      omega
    · intro _
      trivial
  | succ b ih =>
    intro i
    rw [retryFrom]
    cases hcall : call i with
    | success cs =>
      simp only
      constructor
      · intro h
        cases h
      · intro h
        rw [h i (Nat.le_refl i) (by omega)] at hcall
        cases hcall
    | failure =>
      simp only
      rw [ih (i + 1)]
      constructor
      · intro h j h1 h2
        rcases Nat.eq_or_lt_of_le h1 with rfl | h1'
        · exact hcall
        · exact h j h1' (by omega)
      · intro h j h1 h2
        exact h j (by omega) (by omega)

/-- The retry loop returns the payload of the first successful attempt in
its window. -/
theorem retryFrom_success (call : Nat → CallOutcome) :
    ∀ (b i j : Nat) (cs : List Candidate), i ≤ j → j < i + b →
      call j = CallOutcome.success cs →
      (∀ j', i ≤ j' → j' < j → call j' = CallOutcome.failure) →
      retryFrom call b i = some cs := by
  intro b
  induction b with
  | zero =>
    intro i j cs h1 h2
    omega
  | succ b ih =>
    intro i j cs h1 h2 hsucc hfail
    rw [retryFrom]
    rcases Nat.eq_or_lt_of_le h1 with rfl | h1'
    · rw [hsucc]
    · rw [hfail i (Nat.le_refl i) h1']
      exact ih (i + 1) j cs (by omega) (by omega) hsucc
        fun j' ha hb => hfail j' (by omega) hb

/-- The integrity scan finds no duplicate exactly on duplicate-free key
lists. -/
theorem firstDuplicateKey_eq_none :
    ∀ l : List (Nat × Nat), firstDuplicateKey l = none ↔ l.Nodup := by
  intro l
  induction l with
  | nil => simp [firstDuplicateKey]
  | cons k ks ih =>
    rw [firstDuplicateKey, List.nodup_cons]
    by_cases hmem : k ∈ ks
    · simp [hmem]
    · simp [hmem, ih]

/-- C7: the remote step is recorded as a transient error exactly when every
retry within the budget fails — never when some retry succeeds, in which
case the first success's payload is returned; the backoff between retries
is exponential; and on integrity-clean input the pipeline always returns a
run summary (errors are only counted), never aborting. -/
theorem retry_backoff_policy (call : Nat → CallOutcome) (budget : Nat)
    (accept : List Candidate → Option String)
    (rs : List (RawOutput × Resolution))
    (hnodup : (rs.map fun p => recordKey p.1).Nodup) :
    (retryWithBackoff call budget = none ↔
      ∀ i < budget, call i = CallOutcome.failure) ∧
    (remoteStep call budget accept = StratResult.transientError ↔
      ∀ i < budget, call i = CallOutcome.failure) ∧
    (∀ i cs, i < budget → call i = CallOutcome.success cs →
      (∀ j < i, call j = CallOutcome.failure) →
      retryWithBackoff call budget = some cs) ∧
    (∀ base i, backoffDelay base (i + 1) = 2 * backoffDelay base i) ∧
    runPipeline rs = Except.ok (summarize rs, consolidate rs) := by
  have hnone : retryWithBackoff call budget = none ↔
      ∀ i < budget, call i = CallOutcome.failure := by
    rw [retryWithBackoff, retryFrom_eq_none]
    constructor
    · intro h i hi
      exact h i (Nat.zero_le i) (by omega)
    · intro h i _ hi
      exact h i (by omega)
  refine ⟨hnone, ?_, ?_, ?_, ?_⟩
  · rw [← hnone, remoteStep]
    cases hr : retryWithBackoff call budget with
    | none => simp
    | some cs =>
      simp only
      cases accept cs with
      | some d => simp
      | none => simp
  · intro i cs hi hcall hfail
    rw [retryWithBackoff]
    exact retryFrom_success call budget 0 i cs (Nat.zero_le i) (by omega) hcall
      fun j' _ hb => hfail j' hb
  · intro base i
    rw [backoffDelay, backoffDelay, Nat.pow_succ]
    ring
  · rw [runPipeline, (firstDuplicateKey_eq_none _).mpr hnodup]
/-- Group keys ignore titles. -/
theorem groupKeyOf_retitle (f : Option String → Option String)
    (p : RawOutput × Resolution) : groupKeyOf (retitleRec f p) = groupKeyOf p := by
  rcases p with ⟨r, res⟩
  cases res <;> rfl

/-- Record keys ignore titles. -/
theorem recordKey_retitle (f : Option String → Option String)
    (p : RawOutput × Resolution) : recordKey (retitleRec f p).1 = recordKey p.1 := rfl

/-- The earliest contributing key of a member list ignores titles. -/
theorem earliestKey_retitle (f : Option String → Option String) :
    ∀ ms : List (RawOutput × Resolution),
      earliestKey (ms.map (retitleRec f)) = earliestKey ms := by
  intro ms
  induction ms with
  | nil => rfl
  | cons p ps ih =>
    cases ps with
    | nil => rfl
    | cons q t =>
      rw [List.map_cons,
        show earliestKey (retitleRec f p :: (q :: t).map (retitleRec f)) =
          lexMin (recordKey (retitleRec f p).1)
            (earliestKey ((q :: t).map (retitleRec f))) from rfl,
        show earliestKey (p :: q :: t) =
          lexMin (recordKey p.1) (earliestKey (q :: t)) from rfl,
        ih, recordKey_retitle]

/-- Ordered insertion commutes with a map that preserves the order
relation. -/
theorem orderedInsert_map {α β} (r : α → α → Prop) (s : β → β → Prop)
    [DecidableRel r] [DecidableRel s] (F : β → α)
    (hrs : ∀ x y, r (F x) (F y) ↔ s x y) (g : β) :
    ∀ l : List β, List.orderedInsert r (F g) (l.map F) = (List.orderedInsert s g l).map F := by
  intro l
  induction l with
  | nil => rfl
  | cons a t ih =>
    rw [List.map_cons,
      show List.orderedInsert r (F g) (F a :: t.map F) =
        if r (F g) (F a) then F g :: F a :: t.map F
        else F a :: List.orderedInsert r (F g) (t.map F) from rfl,
      show List.orderedInsert s g (a :: t) =
        if s g a then g :: a :: t else a :: List.orderedInsert s g t from rfl]
    by_cases h : s g a
    · rw [if_pos ((hrs g a).mpr h), if_pos h, List.map_cons, List.map_cons]
    · rw [if_neg fun hh => h ((hrs g a).mp hh), if_neg h, List.map_cons, ih]

/-- Insertion sort commutes with a map that preserves the order
relation. -/
theorem insertionSort_map {α β} (r : α → α → Prop) (s : β → β → Prop)
    [DecidableRel r] [DecidableRel s] (F : β → α)
    (hrs : ∀ x y, r (F x) (F y) ↔ s x y) :
    ∀ l : List β, List.insertionSort r (l.map F) = (List.insertionSort s l).map F := by
  intro l
  induction l with
  | nil => rfl
  | cons a t ih =>
    rw [List.map_cons,
      show List.insertionSort r (F a :: t.map F) =
        List.orderedInsert r (F a) (List.insertionSort r (t.map F)) from rfl,
      show List.insertionSort s (a :: t) =
        List.orderedInsert s a (List.insertionSort s t) from rfl,
      ih, orderedInsert_map r s F hrs]

/-- Grouping commutes with rewriting titles. -/
theorem groupRecords_retitle (f : Option String → Option String)
    (rs : List (RawOutput × Resolution)) :
    groupRecords (retitle f rs) = (groupRecords rs).map (retitleGroup f) := by
  rw [groupRecords, groupRecords]
  have hkeys : (retitle f rs).map groupKeyOf = rs.map groupKeyOf := by
    rw [retitle, List.map_map]
    exact List.map_congr_left fun p _ => groupKeyOf_retitle f p
  rw [hkeys, List.map_map]
  apply List.map_congr_left
  intro k _
  rw [Function.comp_apply, retitleGroup]
  have hgf : groupFor (retitle f rs) k = (groupFor rs k).map (retitleRec f) := by
    rw [groupFor, groupFor, retitle, List.filter_map]
    congr 1
  rw [hgf]

/-- The assignment-ordered groups commute with rewriting titles. -/
theorem sortedGroups_retitle (f : Option String → Option String)
    (rs : List (RawOutput × Resolution)) :
    sortedGroups (retitle f rs) = (sortedGroups rs).map (retitleGroup f) := by
  rw [sortedGroups, sortedGroups, groupRecords_retitle]
  exact insertionSort_map groupLe groupLe (retitleGroup f)
    (fun x y => by
      rw [groupLe, groupLe, retitleGroup, retitleGroup]
      simp only
      rw [earliestKey_retitle, earliestKey_retitle]) (groupRecords rs)

/-- The IdMapping rows are unaffected by titles. -/
theorem consolidateMappings_retitle (f : Option String → Option String)
    (rs : List (RawOutput × Resolution)) :
    consolidateMappings (retitle f rs) = consolidateMappings rs := by
  rw [consolidateMappings, consolidateMappings, sortedGroups_retitle,
    List.enum_map]
  rw [List.flatMap_map]
  apply flatMap_congr
  intro ig _
  rcases ig with ⟨i, g⟩
  show ((retitleGroup f g).2.map fun p => (⟨recordKey p.1, i + 1⟩ : IdMapping)) =
    g.2.map fun p => (⟨recordKey p.1, i + 1⟩ : IdMapping)
  rw [retitleGroup]
  simp only
  rw [List.map_map]
  rfl

/-- Canonical ids, provenance and resolved identifiers are unaffected by
titles. -/
theorem consolidateOutputs_retitle (f : Option String → Option String)
    (rs : List (RawOutput × Resolution)) :
    (consolidateOutputs (retitle f rs)).map (fun c => (c.id, c.provenance, c.ident)) =
      (consolidateOutputs rs).map fun c => (c.id, c.provenance, c.ident) := by
  rw [consolidateOutputs, consolidateOutputs, sortedGroups_retitle, List.enum_map,
    List.map_map, List.map_map, List.map_map]
  apply List.map_congr_left
  intro ig _
  rcases ig with ⟨i, g⟩
  show ((canonicalOf i (retitleGroup f g)).id, (canonicalOf i (retitleGroup f g)).provenance,
      (canonicalOf i (retitleGroup f g)).ident) =
    ((canonicalOf i g).id, (canonicalOf i g).provenance, (canonicalOf i g).ident)
  rw [canonicalOf, canonicalOf, retitleGroup]
  simp only
  rw [List.map_map]
  rfl

/-- Each canonical output carries the disagreement annotation of its
group. -/
theorem consolidateOutputs_flags (rs : List (RawOutput × Resolution)) :
    (consolidateOutputs rs).map (fun c => (c.provenance, c.titleDisagreement)) =
      (sortedGroups rs).map fun g =>
        (g.2.map fun p => recordKey p.1,
          decide (1 < (distinctNormalizedTitles g.2).length)) := by
  rw [consolidateOutputs, List.map_map]
  have h1 : ((fun c => (c.provenance, c.titleDisagreement)) ∘
      fun ig => canonicalOf ig.1 ig.2) =
      (fun g => (g.2.map fun p => recordKey p.1,
        decide (1 < (distinctNormalizedTitles g.2).length))) ∘
        (Prod.snd : Nat × (GroupKey × List (RawOutput × Resolution)) →
          GroupKey × List (RawOutput × Resolution)) := by
    funext ig
    rfl
  rw [h1, ← List.map_map, List.enum_map_snd]

/-- C8: every group — title disagreement or not — is merged into exactly
one CanonicalOutput; a group with more than one distinct normalized title
yields an output flagged for audit; and titles never alter the mappings,
ids, provenance or identifiers of a consolidation run — the disagreement
signal is annotation only. -/
theorem title_disagreement_nonblocking (f : Option String → Option String)
    (rs : List (RawOutput × Resolution)) :
    (consolidateOutputs rs).length = (groupRecords rs).length ∧
    (∀ g ∈ sortedGroups rs, 1 < (distinctNormalizedTitles g.2).length →
      ∃ c ∈ consolidateOutputs rs,
        c.provenance = (g.2.map fun p => recordKey p.1) ∧ c.titleDisagreement = true) ∧
    consolidateMappings (retitle f rs) = consolidateMappings rs ∧
    (consolidateOutputs (retitle f rs)).map (fun c => (c.id, c.provenance, c.ident)) =
      (consolidateOutputs rs).map fun c => (c.id, c.provenance, c.ident) := by
  refine ⟨?_, ?_, consolidateMappings_retitle f rs, consolidateOutputs_retitle f rs⟩
  · rw [consolidateOutputs, List.length_map, List.enum_length]
    exact (List.perm_insertionSort groupLe (groupRecords rs)).length_eq
  · intro g hg hdis
    have hmem : (g.2.map fun p => recordKey p.1,
        decide (1 < (distinctNormalizedTitles g.2).length)) ∈
        (consolidateOutputs rs).map fun c => (c.provenance, c.titleDisagreement) := by
      rw [consolidateOutputs_flags]
      exact List.mem_map_of_mem _ hg
    rcases List.mem_map.mp hmem with ⟨c, hc, hceq⟩
    refine ⟨c, hc, ?_, ?_⟩
    · exact congrArg Prod.fst hceq
    · have := congrArg Prod.snd hceq
      simp only at this
      rw [this]
      exact decide_eq_true hdis

/-- C6 witness: the refresh policy evaluated at a concrete cache with a
stored identifier, a no-match marker and an error marker. -/
theorem cache_refresh_policy_witness :
    cacheGet cacheEx (1, 10) = some (CacheValue.ident "10.1234/abc") ∧
    ((∀ k2, cacheGet (runKey resolveNowEx false cacheEx k2) (1, 10) =
        some (CacheValue.ident "10.1234/abc")) ∧
     (cacheGet cacheEx (2, 7) = some CacheValue.unresolvedError →
        shouldResolve cacheEx false (2, 7) = true) ∧
     (cacheGet cacheEx (2, 7) = some CacheValue.unresolvedNoMatch →
        shouldResolve cacheEx false (2, 7) = false ∧
        shouldResolve cacheEx true (2, 7) = true ∧
        runKey resolveNowEx true cacheEx (2, 7) =
          cacheSet cacheEx (2, 7) (resolveNowEx (2, 7))) ∧
     runKey resolveNowEx true cacheEx (1, 10) =
        cacheSet cacheEx (1, 10) (resolveNowEx (1, 10))) :=
  ⟨by decide,
    cache_refresh_policy cacheEx (1, 10) (2, 7) "10.1234/abc" resolveNowEx (by decide)⟩

/-- C7 witness: the retry and error-isolation properties evaluated at a
concrete call sequence (one failure, then success) and concrete pipeline
input. -/
theorem retry_backoff_policy_witness :
    ((grouperExample.map fun p => recordKey p.1).Nodup) ∧
    ((retryWithBackoff callEx 3 = none ↔ ∀ i < 3, callEx i = CallOutcome.failure) ∧
     (remoteStep callEx 3 acceptEx = StratResult.transientError ↔
        ∀ i < 3, callEx i = CallOutcome.failure) ∧
     (∀ i cs, i < 3 → callEx i = CallOutcome.success cs →
        (∀ j < i, callEx j = CallOutcome.failure) →
        retryWithBackoff callEx 3 = some cs) ∧
     (∀ base i, backoffDelay base (i + 1) = 2 * backoffDelay base i) ∧
     runPipeline grouperExample =
       Except.ok (summarize grouperExample, consolidate grouperExample)) :=
  ⟨by decide, retry_backoff_policy callEx 3 acceptEx grouperExample (by decide)⟩

/-- C8 witness: the non-blocking annotation properties evaluated at a
concrete title rewrite and the concrete grouper input. -/
theorem title_disagreement_nonblocking_witness :
    (consolidateOutputs grouperExample).length = (groupRecords grouperExample).length ∧
    (∀ g ∈ sortedGroups grouperExample, 1 < (distinctNormalizedTitles g.2).length →
      ∃ c ∈ consolidateOutputs grouperExample,
        c.provenance = (g.2.map fun p => recordKey p.1) ∧ c.titleDisagreement = true) ∧
    consolidateMappings (retitle retitleEx grouperExample) =
      consolidateMappings grouperExample ∧
    (consolidateOutputs (retitle retitleEx grouperExample)).map
        (fun c => (c.id, c.provenance, c.ident)) =
      (consolidateOutputs grouperExample).map fun c => (c.id, c.provenance, c.ident) :=
  title_disagreement_nonblocking retitleEx grouperExample


/-- A filter that only inspects the source element of each joined row
commutes with pre-filtering the source table. -/
theorem filter_flatMap_by_fst {α β} (P : α → Bool) (F : α → List β) (fst : β → α)
    (hF : ∀ a b, b ∈ F a → fst b = a) :
    ∀ l : List α, ((l.filter P).flatMap F).filter (fun b => P (fst b)) =
      (l.flatMap F).filter fun b => P (fst b) := by
  intro l
  induction l with
  | nil => rfl
  | cons a t ih =>
    by_cases hP : P a = true
    · rw [List.filter_cons_of_pos hP, List.flatMap_cons, List.flatMap_cons,
        List.filter_append, List.filter_append, ih]
    · rw [List.filter_cons_of_neg (by simpa using hP), List.flatMap_cons,
        List.filter_append, ih]
      have hnil : (F a).filter (fun b => P (fst b)) = [] := by
        rw [List.filter_eq_nil_iff]
        intro b hb
        rw [hF a b hb]
        simpa using hP
      rw [hnil, List.nil_append]

/-- Dropping the visits that fail the length filter does not change the
qualifying three-way joined rows. -/
theorem qualifyingVCR_restrict (db : VisitsDb) :
    qualifyingVCR (restrictVisits db) = qualifyingVCR db := by
  rw [qualifyingVCR, qualifyingVCR, joinVCR, joinVCR]
  show (((db.visits.filter lengthPositive).flatMap fun vp =>
      (db.calls.filter fun c => c.id = vp.call_submitted).flatMap fun c =>
        (db.rounds.filter fun r => r.id = c.round_id).map fun r =>
          (vp, c, r)).filter fun t => lengthPositive t.1) =
    ((db.visits.flatMap fun vp =>
      (db.calls.filter fun c => c.id = vp.call_submitted).flatMap fun c =>
        (db.rounds.filter fun r => r.id = c.round_id).map fun r =>
          (vp, c, r)).filter fun t => lengthPositive t.1)
  exact filter_flatMap_by_fst lengthPositive _ Prod.fst
    (by
      intro vp row hrow
      rcases List.mem_flatMap.mp hrow with ⟨c, _, hc⟩
      rcases List.mem_map.mp hc with ⟨r, _, rfl⟩
      rfl)
    db.visits

/-- Dropping the visits that fail the length filter does not change the
qualifying four-way joined rows. -/
theorem qualifyingVCRC_restrict (db : VisitsDb) :
    qualifyingVCRC (restrictVisits db) = qualifyingVCRC db := by
  rw [qualifyingVCRC, qualifyingVCRC, joinVCRC, joinVCRC]
  show (((db.visits.filter lengthPositive).flatMap fun vp =>
      (db.calls.filter fun c => c.id = vp.call_submitted).flatMap fun c =>
        (db.rounds.filter fun r => r.id = c.round_id).flatMap fun r =>
          (db.countries.filter fun cc => vp.nationality = some cc.id).map
            fun cc => (vp, c, r, cc)).filter fun t => lengthPositive t.1) =
    ((db.visits.flatMap fun vp =>
      (db.calls.filter fun c => c.id = vp.call_submitted).flatMap fun c =>
        (db.rounds.filter fun r => r.id = c.round_id).flatMap fun r =>
          (db.countries.filter fun cc => vp.nationality = some cc.id).map
            fun cc => (vp, c, r, cc)).filter fun t => lengthPositive t.1)
  exact filter_flatMap_by_fst lengthPositive _ Prod.fst
    (by
      intro vp row hrow
      rcases List.mem_flatMap.mp hrow with ⟨c, _, hc⟩
      rcases List.mem_flatMap.mp hc with ⟨r, _, hr⟩
      rcases List.mem_map.mp hr with ⟨cc, _, rfl⟩
      rfl)
    db.visits

/-- C9: all four visit report queries count only rows whose
`length_of_visit` is a positive value — removing the zero, negative and
NULL-length visits from the database changes none of the four results, and
every qualifying joined row carries a strictly positive length. -/
theorem visit_queries_filter (db : VisitsDb) :
    visitsPerRound (restrictVisits db) = visitsPerRound db ∧
    visitsAgeRangeCount (restrictVisits db) = visitsAgeRangeCount db ∧
    visitsGenderCount (restrictVisits db) = visitsGenderCount db ∧
    visitsNationalityCount (restrictVisits db) = visitsNationalityCount db ∧
    (∀ t ∈ qualifyingVCR db, ∃ n, t.1.length_of_visit = some n ∧ 0 < n) ∧
    (∀ t ∈ qualifyingVCRC db, ∃ n, t.1.length_of_visit = some n ∧ 0 < n) := by
  have hpos : ∀ vp : VisitorProject, lengthPositive vp = true →
      ∃ n, vp.length_of_visit = some n ∧ 0 < n := by
    intro vp h
    rw [lengthPositive] at h
    cases hl : vp.length_of_visit with
    | none => rw [hl] at h; cases h
    | some n =>
      rw [hl] at h
      exact ⟨n, rfl, by simpa using h⟩
  refine ⟨?_, ?_, ?_, ?_, ?_, ?_⟩
  · rw [visitsPerRound, visitsPerRound, qualifyingVCR_restrict]
  · rw [visitsAgeRangeCount, visitsAgeRangeCount, qualifyingVCR_restrict]
  · rw [visitsGenderCount, visitsGenderCount, qualifyingVCR_restrict]
  · rw [visitsNationalityCount, visitsNationalityCount, qualifyingVCRC_restrict]
  · intro t ht
    exact hpos t.1 (List.mem_filter.mp ht).2
  · intro t ht
    exact hpos t.1 (List.mem_filter.mp ht).2

instance : IsTotal (Option String) strOptLe := by
  constructor
  intro a b
  cases a with
  | none => exact Or.inl trivial
  | some x =>
    cases b with
    | none => exact Or.inr trivial
    | some y => exact (le_total x y).elim Or.inl Or.inr

instance : IsTrans (Option String) strOptLe := by
  constructor
  intro a b c hab hbc
  cases a with
  | none => exact trivial
  | some x =>
    cases b with
    | none => cases hab
    | some y =>
      cases c with
      | none => cases hbc
      | some z => exact le_trans hab hbc

instance pairLeTotal {β : Type} (le2 : β → β → Prop) [IsTotal β le2] :
    IsTotal (String × β) (pairLe le2) := by
  constructor
  intro a b
  rcases lt_trichotomy a.1 b.1 with h | h | h
  · exact Or.inl (Or.inl h)
  · rcases IsTotal.total (r := le2) a.2 b.2 with h2 | h2
    · exact Or.inl (Or.inr ⟨h, h2⟩)
    · exact Or.inr (Or.inr ⟨h.symm, h2⟩)
  · exact Or.inr (Or.inl h)

instance pairLeTrans {β : Type} (le2 : β → β → Prop) [IsTrans β le2] :
    IsTrans (String × β) (pairLe le2) := by
  constructor
  rintro a b c (hab | ⟨hab, hab2⟩) (hbc | ⟨hbc, hbc2⟩)
  · exact Or.inl (lt_trans hab hbc)
  · exact Or.inl (hbc ▸ hab)
  · exact Or.inl (hab ▸ hbc)
  · exact Or.inr ⟨hab.trans hbc, Trans.trans (r := le2) (s := le2) hab2 hbc2⟩

/-- The keys of a grouped count are the sorted distinct key values. -/
theorem groupCounts_keys {α κ : Type} [DecidableEq κ] (key : α → κ)
    (le : κ → κ → Prop) [DecidableRel le] (l : List α) :
    (groupCounts key le l).map Prod.fst =
      List.insertionSort le (l.map key).dedup := by
  rw [groupCounts, List.map_map]
  simp [Function.comp_def]

/-- C10: the gender report groups the qualifying rows by
`(round name, gender)` — each such key appears exactly once with the count
of its rows — orders the result by round name then gender, and labels the
gender value with the header `age range` (no cell is labelled `gender`). -/
theorem gender_query_shape (db : VisitsDb) :
    (∀ row ∈ visitsGenderCountRows db, ∃ name g n,
        row = [("synth round", name), ("age range", optValue g),
          ("count", toString n)] ∧
        ((name, g), n) ∈ visitsGenderCount db) ∧
    (∀ row ∈ visitsGenderCountRows db, ∀ cell ∈ row, cell.1 ≠ "gender") ∧
    List.Sorted (pairLe strOptLe) ((visitsGenderCount db).map Prod.fst) ∧
    ((visitsGenderCount db).map Prod.fst).Nodup ∧
    (∀ t ∈ qualifyingVCR db, ∃ n,
        ((t.2.2.name, t.1.gender), n) ∈ visitsGenderCount db ∧
        n = ((qualifyingVCR db).filter fun u =>
          (u.2.2.name, u.1.gender) = (t.2.2.name, t.1.gender)).length ∧ 0 < n) := by
  have hshape : ∀ row ∈ visitsGenderCountRows db, ∃ name g n,
      row = [("synth round", name), ("age range", optValue g),
        ("count", toString n)] ∧
      ((name, g), n) ∈ visitsGenderCount db := by
    intro row hrow
    rcases List.mem_map.mp hrow with ⟨kn, hkn, rfl⟩
    exact ⟨kn.1.1, kn.1.2, kn.2, rfl, hkn⟩
  refine ⟨hshape, ?_, ?_, ?_, ?_⟩
  · intro row hrow cell hcell
    rcases hshape row hrow with ⟨name, g, n, rfl, _⟩
    rcases List.mem_cons.mp hcell with rfl | hcell
    · simp
    rcases List.mem_cons.mp hcell with rfl | hcell
    · simp
    rcases List.mem_cons.mp hcell with rfl | hcell
    · simp
    · cases hcell
  · rw [visitsGenderCount, groupCounts_keys]
    exact List.sorted_insertionSort _ _
  · rw [visitsGenderCount, groupCounts_keys]
    exact (List.perm_insertionSort _ _).nodup_iff.mpr (List.nodup_dedup _)
  · intro t ht
    refine ⟨((qualifyingVCR db).filter fun u =>
      (u.2.2.name, u.1.gender) = (t.2.2.name, t.1.gender)).length, ?_, rfl, ?_⟩
    · rw [visitsGenderCount, groupCounts]
      have hk : (t.2.2.name, t.1.gender) ∈
          List.insertionSort (pairLe strOptLe)
            ((qualifyingVCR db).map fun u => (u.2.2.name, u.1.gender)).dedup := by
        rw [(List.perm_insertionSort (pairLe strOptLe) _).mem_iff]
        exact List.mem_dedup.mpr (List.mem_map_of_mem _ ht)
      exact List.mem_map_of_mem _ hk
    · have : t ∈ (qualifyingVCR db).filter fun u =>
          (u.2.2.name, u.1.gender) = (t.2.2.name, t.1.gender) :=
        List.mem_filter.mpr ⟨ht, by simp⟩
      exact List.length_pos.mpr (List.ne_nil_of_mem this)

end SynthTransform
